import Mathlib

/-!
Shallow embedding of the driver-assignment core (`assignment.py`) of the
Multi-Factor-Decision-Making-For-Driver-Assignment repository.

The Python code works on pandas dataframes of driver and order records; here a
record is a structure and a dataframe a list of records.  Python floats are
modelled as rationals.  The pairwise cost dictionary is modelled as an
association list built in iteration order, looked up with last-write-wins
semantics (exactly a Python `dict` whose keys may be written several times).

`haversine_distance` computes `R * 2 * arcsin (sqrt ...)` with trigonometric
functions; the model abstracts the distance metric as an explicit function
parameter `dist` of the same four coordinates, since no claim depends on the
trigonometric formula itself (only on values the metric can take, e.g. `0`
for two identical positions).

`assign_drivers_to_orders` hands a 0/1 integer program to PuLP/CBC: minimise
the total cost subject to "each order is assigned to exactly one driver" and
"each driver handles at most `driver_capacity` orders".  CBC is an exact
solver, so the model solves the same program by enumerating every choice
function from orders to drivers (an order-indexed list of driver indices),
filtering by the capacity constraint and taking a cost-minimal element.  The
results are collected exactly as in the source: driver-major iteration over
the pairs, emitting a `(driver_id, order_id, cost)` triple for each chosen
pair.  Looking a pair up in the cost dictionary fails with a `KeyError` in
Python when the key is absent; the model returns `none` in that case, and
`some results` when every pair the objective reads is present.  Decision
variables and dictionary keys are identified by driver/order identity, so the
optimisation model is faithful for inputs whose identities are unique (the
data-model invariant of the system); theorems about the solver carry that
`Nodup` hypothesis.
-/

namespace DriverAssignment

/-- A driver record (one row of `drivers_df`), fields as produced by
`generate_simulated_data` and read by `compute_pairwise_cost`. -/
structure Driver where
  driver_id : String
  loc_lat : ℚ
  loc_lon : ℚ
  rating : ℚ
  cost_factor : ℚ
  incentive_progress : ℚ
  shift_start : ℚ
  shift_end : ℚ
  next_break_in_minutes : ℚ
deriving DecidableEq

/-- An order record (one row of `orders_df`). -/
structure Order where
  order_id : String
  loc_lat : ℚ
  loc_lon : ℚ
  item_value : ℚ
  priority : String
  required_sla : ℚ
  surge_zone : Bool
deriving DecidableEq

/-- The keyword parameters of `compute_pairwise_cost`, with the source's
default values. -/
structure CostParams where
  traffic_level : ℚ := 1
  w_time : ℚ := 1
  w_cost : ℚ := 1
  w_rating : ℚ := 1
  w_incentive : ℚ := -(1/2)
  w_fairness : ℚ := 1/2
  w_surge : ℚ := -2
  current_time : ℚ := 10
deriving DecidableEq

/-- The cost dictionary: keys are `(driver_id, order_id)` pairs. -/
abbrev CostKey := String × String

abbrev CostTable := List (CostKey × ℚ)

/-- Lookup in the cost dictionary. The list records every `costs[k] = v`
write in program order, so the *last* binding of a key wins, exactly as for a
Python `dict`. -/
def dictLookup (l : CostTable) (k : CostKey) : Option ℚ :=
  l.foldl (fun acc e => if e.1 = k then some e.2 else acc) none

/-- The cost of one feasible `(driver, order)` pair: the summation at the end
of the inner loop of `compute_pairwise_cost`.  `break_penalty` and
`fairness_penalty` are computed once per driver, outside the inner loop, and
passed in. -/
def pairCost (dist : ℚ → ℚ → ℚ → ℚ → ℚ) (p : CostParams) (driver : Driver)
    (order : Order) (break_penalty fairness_penalty : ℚ) : ℚ :=
  let dist_km := dist driver.loc_lat driver.loc_lon order.loc_lat order.loc_lon
  let time_cost := p.w_time * dist_km * p.traffic_level
  let driver_cost := p.w_cost * driver.cost_factor
  let rating_penalty :=
    if order.priority = "vip" ∨ order.priority = "high_value" then
      (if driver.rating < 5 then p.w_rating * (5 - driver.rating) else 0)
    else 0
  let incentive_adj := if 8 ≤ driver.incentive_progress then p.w_incentive else 0
  let surge_adjustment := if order.surge_zone then p.w_surge else 0
  time_cost + driver_cost + rating_penalty + incentive_adj +
    fairness_penalty + surge_adjustment + break_penalty

/-- One iteration of the outer (driver) loop of `compute_pairwise_cost`: the
dictionary entries written for one driver.  If the current time is outside
the driver's shift window every order gets the sentinel cost `999999`;
otherwise each order gets the weighted pair cost, with the break penalty
(`50` if the next break is less than `10` minutes away) and the fairness
penalty (`w_fairness * max 0 (incentive_progress - 5)`) fixed per driver. -/
def driverPairCosts (dist : ℚ → ℚ → ℚ → ℚ → ℚ) (p : CostParams)
    (orders : List Order) (driver : Driver) : CostTable :=
  if driver.shift_start ≤ p.current_time ∧ p.current_time ≤ driver.shift_end then
    let break_penalty : ℚ := if driver.next_break_in_minutes < 10 then 50 else 0
    let fairness_penalty : ℚ := p.w_fairness * max 0 (driver.incentive_progress - 5)
    orders.map fun o =>
      ((driver.driver_id, o.order_id), pairCost dist p driver o break_penalty fairness_penalty)
  else
    orders.map fun o => ((driver.driver_id, o.order_id), (999999 : ℚ))

/-- `compute_pairwise_cost(drivers_df, orders_df, ...)`: the cost dictionary,
written driver by driver in input order. -/
def compute_pairwise_cost (dist : ℚ → ℚ → ℚ → ℚ → ℚ) (drivers : List Driver)
    (orders : List Order) (p : CostParams) : CostTable :=
  drivers.flatMap (driverPairCosts dist p orders)

/-- All choice functions from `m` orders to `n` drivers, encoded as lists of
driver indices of length `m` with entries below `n`: the feasible region of
the source's "each order is assigned to exactly one driver" constraint. -/
def allTuples (n : ℕ) : ℕ → List (List ℕ)
  | 0 => [[]]
  | m + 1 => (List.range n).flatMap fun dI => (allTuples n m).map fun f => dI :: f

/-- The source's capacity constraint: every driver is chosen by at most
`cap` orders. -/
def capacityOk (n cap : ℕ) (f : List ℕ) : Bool :=
  (List.range n).all fun dI => f.count dI ≤ cap

/-- Total lookup used inside the already-guarded objective and collection
(the guard `allPairsPresent` ensures the default is never reached). -/
def lookupD (costs : CostTable) (k : CostKey) : ℚ :=
  (dictLookup costs k).getD 0

/-- Whether `costs[(d_id, o_id)]` is defined for every pair the objective
reads; when it is not, the Python code dies with a `KeyError`. -/
def allPairsPresent (driverIds orderIds : List String) (costs : CostTable) : Bool :=
  driverIds.all fun dId => orderIds.all fun oId => (dictLookup costs (dId, oId)).isSome

/-- The objective value of a choice function: the sum over all pairs of
`costs[(d_id, o_id)] * x[(d_id, o_id)]`, which for a 0/1 solution with
exactly one driver per order is the sum over orders of the chosen pair's
cost. -/
def totalCost (costs : CostTable) (driverIds orderIds : List String)
    (f : List ℕ) : ℚ :=
  ((List.range orderIds.length).map fun oI =>
    lookupD costs (driverIds.getD (f.getD oI 0) "", orderIds.getD oI "")).sum

/-- The result-collection loops at the end of `assign_drivers_to_orders`:
for each driver (in input order), for each order (in input order), emit the
triple `(d_id, o_id, costs[(d_id, o_id)])` when the decision variable of the
pair is `1`, i.e. when the choice function sends that order to that
driver. -/
def collectTriples (costs : CostTable) (driverIds orderIds : List String)
    (f : List ℕ) : List (String × String × ℚ) :=
  (List.range driverIds.length).flatMap fun dI =>
    (List.range orderIds.length).filterMap fun oI =>
      if f.getD oI 0 = dI then
        some (driverIds.getD dI "", orderIds.getD oI "",
          lookupD costs (driverIds.getD dI "", orderIds.getD oI ""))
      else none

/-- `assign_drivers_to_orders(drivers_df, orders_df, costs, driver_capacity)`:
minimise the total cost over all assignments sending each order to exactly
one driver with each driver receiving at most `driver_capacity` orders, then
collect the chosen triples.  `none` models the `KeyError` raised when the
objective reads a missing cost entry; when the integer program is infeasible
(total capacity below the number of orders) no decision variable is set to
`1` and the collection is empty. -/
def assign_drivers_to_orders (drivers : List Driver) (orders : List Order)
    (costs : CostTable) (driver_capacity : ℕ) : Option (List (String × String × ℚ)) :=
  let driverIds := drivers.map Driver.driver_id
  let orderIds := orders.map Order.order_id
  if allPairsPresent driverIds orderIds costs then
    let feasible := (allTuples driverIds.length orderIds.length).filter
      (capacityOk driverIds.length driver_capacity)
    match (feasible.argmin (totalCost costs driverIds orderIds)) with
    | some f => some (collectTriples costs driverIds orderIds f)
    | none => some []
  else
    none

/-! ### Concrete fixtures (used to instantiate theorems on small inputs) -/

/-- A degenerate distance metric: all positions coincide (haversine of a
point with itself is `0`). -/
def distZero : ℚ → ℚ → ℚ → ℚ → ℚ := fun _ _ _ _ => 0

/-- A driver on shift from 8 to 17, far from any break. -/
def exD1 : Driver :=
  { driver_id := "D1", loc_lat := 0, loc_lon := 0, rating := 4, cost_factor := 1,
    incentive_progress := 0, shift_start := 8, shift_end := 17,
    next_break_in_minutes := 30 }

/-- A second driver with a distinct identity. -/
def exD2 : Driver := { exD1 with driver_id := "D2" }

/-- A driver within 10 minutes of a mandatory break. -/
def exDBreak : Driver := { exD1 with next_break_in_minutes := 5 }

/-- A normal-priority order outside any surge zone. -/
def exO1 : Order :=
  { order_id := "O1", loc_lat := 0, loc_lon := 0, item_value := 100,
    priority := "normal", required_sla := 20, surge_zone := false }

/-- An order inside a surge zone. -/
def exOSurge : Order := { exO1 with surge_zone := true }

/-- The source's default parameters (`current_time = 10`, inside `exD1`'s
shift). -/
def exParams : CostParams := {}

/-- Default parameters but with `current_time = 20`, outside `exD1`'s
shift. -/
def exParamsLate : CostParams := { current_time := 20 }

/-- A two-driver, one-order cost table given directly to the solver. -/
def exTable2 : CostTable := [(("D1", "O1"), 5), (("D2", "O1"), 3)]

/-- A one-driver, one-order cost table. -/
def exTable1 : CostTable := [(("D1", "O1"), 7)]

/-! ### Generic list and dictionary lemmas -/

theorem dictLookup_foldl_acc (l : CostTable) (k : CostKey) (acc : Option ℚ) :
    l.foldl (fun a e => if e.1 = k then some e.2 else a) acc =
      (l.foldl (fun a e => if e.1 = k then some e.2 else a) none).or acc := by
  induction l generalizing acc with
  | nil => simp [Option.none_or]
  | cons e l ih =>
    simp only [List.foldl_cons]
    rw [ih (if e.1 = k then some e.2 else acc), ih (if e.1 = k then some e.2 else none)]
    cases h : l.foldl (fun a e => if e.1 = k then some e.2 else a) none with
    | some v => simp [Option.or_some]
    | none => by_cases he : e.1 = k <;> simp [he, Option.none_or]

theorem dictLookup_cons (e : CostKey × ℚ) (l : CostTable) (k : CostKey) :
    dictLookup (e :: l) k = (dictLookup l k).or (if e.1 = k then some e.2 else none) := by
  show List.foldl _ (if e.1 = k then some e.2 else none) l = _
  exact dictLookup_foldl_acc l k _

theorem dictLookup_append (a b : CostTable) (k : CostKey) :
    dictLookup (a ++ b) k = (dictLookup b k).or (dictLookup a k) := by
  show List.foldl _ _ (a ++ b) = _
  rw [List.foldl_append]
  exact dictLookup_foldl_acc b k _

theorem dictLookup_eq_none (l : CostTable) (k : CostKey) :
    dictLookup l k = none ↔ ∀ e ∈ l, e.1 ≠ k := by
  induction l with
  | nil => simp [dictLookup]
  | cons e l ih =>
    rw [dictLookup_cons]
    constructor
    · intro h e' he'
      have h1 : dictLookup l k = none :=  by
        cases hl : dictLookup l k with
        | none => rfl
        | some v => rw [hl, Option.or_some] at h; exact Option.noConfusion h
      have h2 : e.1 ≠ k := by
        intro hek
        rw [h1, Option.none_or, if_pos hek] at h
        exact Option.noConfusion h
      rcases List.mem_cons.mp he' with h3 | h3
      · rw [h3]; exact h2
      · exact (ih.mp h1) e' h3
    · intro hall
      have h1 : dictLookup l k = none :=
        ih.mpr fun e' he' => hall e' (List.mem_cons_of_mem _ he')
      rw [h1, Option.none_or, if_neg (hall e (List.mem_cons_self e l))]

theorem dictLookup_mem {l : CostTable} {k : CostKey} {v : ℚ}
    (h : dictLookup l k = some v) : (k, v) ∈ l := by
  induction l with
  | nil => simp [dictLookup] at h
  | cons e l ih =>
    rw [dictLookup_cons] at h
    cases hl : dictLookup l k with
    | some w =>
      rw [hl, Option.or_some] at h
      cases h
      exact List.mem_cons_of_mem _ (ih hl)
    | none =>
      rw [hl, Option.none_or] at h
      by_cases he : e.1 = k
      · rw [if_pos he] at h
        have hv : e.2 = v := Option.some.inj h
        have hkv : (k, v) = e := by
          obtain ⟨k', v'⟩ := e
          simp only at he hv
          rw [he, hv]
        rw [hkv]
        exact List.mem_cons_self e l
      · rw [if_neg he] at h
        exact Option.noConfusion h

theorem dictLookup_isSome {l : CostTable} {k : CostKey}
    (h : ∃ e ∈ l, e.1 = k) : (dictLookup l k).isSome = true := by
  cases hl : dictLookup l k with
  | some v => rfl
  | none =>
    obtain ⟨e, he, hek⟩ := h
    exact absurd hek ((dictLookup_eq_none l k).mp hl e he)

theorem sum_map_flatMap {α β M : Type} [AddMonoid M] (g : β → M) (F : α → List β)
    (l : List α) :
    ((l.flatMap F).map g).sum = (l.map fun a => ((F a).map g).sum).sum := by
  induction l with
  | nil => simp
  | cons a l ih => simp [List.flatMap_cons, List.map_append, List.sum_append, ih]

theorem filterMap_if_eq_map_filter {α β : Type} (p : α → Prop) [DecidablePred p]
    (g : α → β) (l : List α) :
    (l.filterMap fun a => if p a then some (g a) else none) =
      (l.filter fun a => decide (p a)).map g := by
  induction l with
  | nil => simp
  | cons a l ih =>
    by_cases hp : p a
    · simp [List.filterMap_cons, List.filter_cons, hp, ih]
    · simp [List.filterMap_cons, List.filter_cons, hp, ih]

theorem sum_map_add {α M : Type} [AddCommMonoid M] (g1 g2 : α → M) (l : List α) :
    (l.map fun a => g1 a + g2 a).sum = (l.map g1).sum + (l.map g2).sum := by
  induction l with
  | nil => simp
  | cons a l ih =>
    simp only [List.map_cons, List.sum_cons, ih]
    abel

theorem sum_range_indicator {M : Type} [AddMonoid M] (v : M) (n k : ℕ) (h : k < n) :
    ((List.range n).map fun i => if k = i then v else 0).sum = v := by
  induction n with
  | zero => omega
  | succ n ih =>
    rw [List.range_succ, List.map_append, List.sum_append]
    by_cases hk : k = n
    · have h0 : ((List.range n).map fun i => if k = i then v else 0).sum = 0 := by
        apply List.sum_eq_zero
        intro x hx
        obtain ⟨i, hi, rfl⟩ := List.mem_map.mp hx
        have : i < n := List.mem_range.mp hi
        rw [if_neg (by omega)]
      rw [h0, hk]
      simp
    · rw [ih (by omega)]
      simp [hk]

theorem sum_range_fiber {M : Type} [AddCommMonoid M] (c : ℕ → M) (F : ℕ → ℕ)
    (n : ℕ) (l : List ℕ) (h : ∀ x ∈ l, F x < n) :
    ((List.range n).map fun dI =>
      ((l.filter fun oI => decide (F oI = dI)).map c).sum).sum = (l.map c).sum := by
  induction l with
  | nil =>
    simp only [List.filter_nil, List.map_nil, List.sum_nil]
    exact List.sum_eq_zero fun x hx => by
      obtain ⟨i, _, rfl⟩ := List.mem_map.mp hx; rfl
  | cons a l ih =>
    have hsplit : (fun dI => (((a :: l).filter fun oI => decide (F oI = dI)).map c).sum) =
        fun dI => (if F a = dI then c a else 0) +
          ((l.filter fun oI => decide (F oI = dI)).map c).sum := by
      funext dI
      rw [List.filter_cons]
      by_cases hFa : F a = dI
      · simp [hFa]
      · simp [hFa]
    rw [hsplit, sum_map_add]
    rw [sum_range_indicator (c a) n (F a) (h a (List.mem_cons_self a l))]
    rw [ih fun x hx => h x (List.mem_cons_of_mem a hx)]
    simp

theorem countP_eq_sum_map {α : Type} (q : α → Bool) (l : List α) :
    l.countP q = (l.map fun a => if q a = true then 1 else 0).sum := by
  induction l with
  | nil => simp
  | cons a l ih =>
    rw [List.countP_cons, List.map_cons, List.sum_cons, ih]
    omega

theorem filter_range_getD_count (f : List ℕ) (dI : ℕ) :
    ((List.range f.length).filter fun oI => decide (f.getD oI 0 = dI)).length =
      f.count dI := by
  induction f with
  | nil => simp
  | cons a f ih =>
    rw [List.length_cons, List.range_succ_eq_map, List.filter_cons]
    have hcomp : ((List.range f.length).map Nat.succ).filter
          (fun oI => decide ((a :: f).getD oI 0 = dI)) =
        ((List.range f.length).filter fun oI => decide (f.getD oI 0 = dI)).map Nat.succ := by
      rw [List.filter_map]
      rfl
    rw [List.count_cons]
    by_cases ha : a = dI
    · rw [if_pos (by simpa using ha)]
      rw [List.length_cons, hcomp, List.length_map, ih]
      simp [ha]
    · rw [if_neg (by simpa using ha)]
      rw [hcomp, List.length_map, ih]
      simp [ha]

/-! ### Characterisations of the solver's search space -/

theorem mem_allTuples {n m : ℕ} {f : List ℕ} :
    f ∈ allTuples n m ↔ f.length = m ∧ ∀ i ∈ f, i < n := by
  induction m generalizing f with
  | zero =>
    simp only [allTuples, List.mem_singleton]
    constructor
    · rintro rfl; simp
    · rintro ⟨hlen, _⟩
      exact List.length_eq_zero.mp hlen
  | succ m ih =>
    simp only [allTuples, List.mem_flatMap, List.mem_map, List.mem_range]
    constructor
    · rintro ⟨dI, hdI, g, hg, rfl⟩
      obtain ⟨hlen, hbound⟩ := ih.mp hg
      refine ⟨by simp [hlen], ?_⟩
      intro i hi
      rcases List.mem_cons.mp hi with rfl | hi
      · exact hdI
      · exact hbound i hi
    · rintro ⟨hlen, hbound⟩
      cases f with
      | nil => simp at hlen
      | cons a g =>
        refine ⟨a, hbound a (List.mem_cons_self a g), g, ?_, rfl⟩
        exact ih.mpr ⟨by simpa using hlen, fun i hi => hbound i (List.mem_cons_of_mem a hi)⟩

theorem capacityOk_iff {n cap : ℕ} {f : List ℕ} :
    capacityOk n cap f = true ↔ ∀ dI < n, f.count dI ≤ cap := by
  simp [capacityOk, List.all_eq_true, List.mem_range]

/-! ### Structure of the cost dictionary -/

theorem driverPairCosts_key {dist : ℚ → ℚ → ℚ → ℚ → ℚ} {p : CostParams}
    {orders : List Order} {d : Driver} {e : CostKey × ℚ}
    (he : e ∈ driverPairCosts dist p orders d) : e.1.1 = d.driver_id := by
  unfold driverPairCosts at he
  by_cases hw : d.shift_start ≤ p.current_time ∧ p.current_time ≤ d.shift_end
  · rw [if_pos hw] at he
    obtain ⟨o, _, rfl⟩ := List.mem_map.mp he
    rfl
  · rw [if_neg hw] at he
    obtain ⟨o, _, rfl⟩ := List.mem_map.mp he
    rfl

theorem driverPairCosts_key_exists {dist : ℚ → ℚ → ℚ → ℚ → ℚ} {p : CostParams}
    {orders : List Order} {d : Driver} {o : Order} (ho : o ∈ orders) :
    ∃ e ∈ driverPairCosts dist p orders d, e.1 = (d.driver_id, o.order_id) := by
  unfold driverPairCosts
  by_cases hw : d.shift_start ≤ p.current_time ∧ p.current_time ≤ d.shift_end
  · rw [if_pos hw]
    exact ⟨_, List.mem_map_of_mem _ ho, rfl⟩
  · rw [if_neg hw]
    exact ⟨_, List.mem_map_of_mem _ ho, rfl⟩

/-- With pairwise-distinct driver identities, looking up one driver's key in
the whole cost dictionary is looking it up in that driver's own block of
entries (no later driver overwrites it, no earlier driver is preferred). -/
theorem dictLookup_compute_eq_block (dist : ℚ → ℚ → ℚ → ℚ → ℚ) (p : CostParams)
    (orders : List Order) (s t : List Driver) (d : Driver) (k : CostKey)
    (hNodup : ((s ++ d :: t).map Driver.driver_id).Nodup)
    (hk : k.1 = d.driver_id)
    (hkey : ∃ e ∈ driverPairCosts dist p orders d, e.1 = k) :
    dictLookup (compute_pairwise_cost dist (s ++ d :: t) orders p) k =
      dictLookup (driverPairCosts dist p orders d) k := by
  have hid_not_mem : d.driver_id ∉ t.map Driver.driver_id := by
    rw [List.map_append, List.map_cons] at hNodup
    exact (List.nodup_cons.mp hNodup.of_append_right).1
  have hC : dictLookup (t.flatMap (driverPairCosts dist p orders)) k = none := by
    rw [dictLookup_eq_none]
    intro e he
    obtain ⟨d', hd', heB⟩ := List.mem_flatMap.mp he
    have h1 : e.1.1 = d'.driver_id := driverPairCosts_key heB
    have h2 : d'.driver_id ≠ d.driver_id := by
      intro hcontra
      exact hid_not_mem (hcontra ▸ List.mem_map_of_mem Driver.driver_id hd')
    intro hcontra
    exact h2 (by rw [← h1, hcontra, hk])
  have hB : (dictLookup (driverPairCosts dist p orders d) k).isSome = true :=
    dictLookup_isSome hkey
  unfold compute_pairwise_cost
  rw [List.flatMap_append, List.flatMap_cons, dictLookup_append, dictLookup_append, hC,
    Option.none_or]
  obtain ⟨v, hv⟩ := Option.isSome_iff_exists.mp hB
  rw [hv, Option.or_some]

/-- Every value in an out-of-shift driver's block is the sentinel. -/
theorem dictLookup_block_sentinel {dist : ℚ → ℚ → ℚ → ℚ → ℚ} {p : CostParams}
    {orders : List Order} {d : Driver} {o : Order} (ho : o ∈ orders)
    (hw : ¬(d.shift_start ≤ p.current_time ∧ p.current_time ≤ d.shift_end)) :
    dictLookup (driverPairCosts dist p orders d) (d.driver_id, o.order_id) =
      some 999999 := by
  have hkey : ∃ e ∈ driverPairCosts dist p orders d,
      e.1 = (d.driver_id, o.order_id) := driverPairCosts_key_exists ho
  obtain ⟨v, hv⟩ := Option.isSome_iff_exists.mp (dictLookup_isSome hkey)
  have hmem := dictLookup_mem hv
  unfold driverPairCosts at hmem
  rw [if_neg hw] at hmem
  obtain ⟨o', _, heq⟩ := List.mem_map.mp hmem
  have : v = 999999 := (congrArg Prod.snd heq).symm
  rw [hv, this]

/-- Every value in an on-shift driver's block is the pair cost of some order
record carrying the looked-up order identity. -/
theorem dictLookup_block_pairCost {dist : ℚ → ℚ → ℚ → ℚ → ℚ} {p : CostParams}
    {orders : List Order} {d : Driver} {o : Order} (ho : o ∈ orders)
    (hw : d.shift_start ≤ p.current_time ∧ p.current_time ≤ d.shift_end) :
    ∃ o' ∈ orders, o'.order_id = o.order_id ∧
      dictLookup (driverPairCosts dist p orders d) (d.driver_id, o.order_id) =
        some (pairCost dist p d o'
          (if d.next_break_in_minutes < 10 then 50 else 0)
          (p.w_fairness * max 0 (d.incentive_progress - 5))) := by
  have hkey : ∃ e ∈ driverPairCosts dist p orders d,
      e.1 = (d.driver_id, o.order_id) := driverPairCosts_key_exists ho
  obtain ⟨v, hv⟩ := Option.isSome_iff_exists.mp (dictLookup_isSome hkey)
  have hmem := dictLookup_mem hv
  unfold driverPairCosts at hmem
  rw [if_pos hw] at hmem
  simp only at hmem
  obtain ⟨o', ho', heq⟩ := List.mem_map.mp hmem
  refine ⟨o', ho', ?_, ?_⟩
  · have := congrArg Prod.fst heq
    exact congrArg Prod.snd this
  · rw [hv]
    exact congrArg some (congrArg Prod.snd heq).symm

/-- Splitting the break penalty out of a pair cost. -/
theorem pairCost_break (dist : ℚ → ℚ → ℚ → ℚ → ℚ) (p : CostParams) (d : Driver)
    (o : Order) (bp fp : ℚ) :
    pairCost dist p d o bp fp = pairCost dist p d o 0 fp + bp := by
  simp only [pairCost]
  ring

/-- A pair cost is non-negative when the distance metric, the traffic level,
all weights, the penalties and the driver's cost factor are. -/
theorem pairCost_nonneg {dist : ℚ → ℚ → ℚ → ℚ → ℚ} {p : CostParams} {d : Driver}
    {o : Order} {bp fp : ℚ}
    (hdist : 0 ≤ dist d.loc_lat d.loc_lon o.loc_lat o.loc_lon)
    (htr : 0 ≤ p.traffic_level) (hwt : 0 ≤ p.w_time) (hwc : 0 ≤ p.w_cost)
    (hwr : 0 ≤ p.w_rating) (hwi : 0 ≤ p.w_incentive) (hws : 0 ≤ p.w_surge)
    (hcf : 0 ≤ d.cost_factor) (hbp : 0 ≤ bp) (hfp : 0 ≤ fp) :
    0 ≤ pairCost dist p d o bp fp := by
  simp only [pairCost]
  have t1 : 0 ≤ p.w_time * dist d.loc_lat d.loc_lon o.loc_lat o.loc_lon *
      p.traffic_level := mul_nonneg (mul_nonneg hwt hdist) htr
  have t2 : 0 ≤ p.w_cost * d.cost_factor := mul_nonneg hwc hcf
  have t3 : (0 : ℚ) ≤
      if o.priority = "vip" ∨ o.priority = "high_value" then
        (if d.rating < 5 then p.w_rating * (5 - d.rating) else 0)
      else 0 := by
    split_ifs with h1 h2
    · exact mul_nonneg hwr (by linarith)
    · exact le_refl 0
    · exact le_refl 0
  have t4 : (0 : ℚ) ≤ if 8 ≤ d.incentive_progress then p.w_incentive else 0 := by
    split_ifs
    · exact hwi
    · exact le_refl 0
  have t5 : (0 : ℚ) ≤ if o.surge_zone = true then p.w_surge else 0 := by
    split_ifs
    · exact hws
    · exact le_refl 0
  linarith

/-- Looking up a key in two order-keyed blocks whose values differ by a
constant offset. -/
theorem dictLookup_map_offset {α : Type} (κ : α → CostKey) (v1 v2 : α → ℚ)
    (δ : ℚ) (l : List α) (h : ∀ o ∈ l, v1 o = v2 o + δ) (k : CostKey) :
    dictLookup (l.map fun o => (κ o, v1 o)) k =
      Option.map (· + δ) (dictLookup (l.map fun o => (κ o, v2 o)) k) := by
  induction l with
  | nil => rfl
  | cons o os ih =>
    rw [List.map_cons, List.map_cons, dictLookup_cons, dictLookup_cons,
      ih fun o' ho' => h o' (List.mem_cons_of_mem _ ho')]
    cases hrest : dictLookup (os.map fun o => (κ o, v2 o)) k with
    | some w => simp
    | none =>
      by_cases hk : κ o = k
      · simp [hk, h o (List.mem_cons_self o os)]
      · simp [hk]

/-! ### Claims about the cost model -/

/-- Claim C4: for every driver whose availability window does not contain the
run's current time (`current_time < shift_start` or
`current_time > shift_end`), `compute_pairwise_cost` assigns the infeasible
sentinel cost `999999` to every `(driver, order)` pair involving that driver,
regardless of the values of all other cost terms. -/
theorem c4_unavailable_driver_sentinel (dist : ℚ → ℚ → ℚ → ℚ → ℚ)
    (p : CostParams) (drivers : List Driver) (orders : List Order)
    (d : Driver) (o : Order) (hd : d ∈ drivers)
    (hNodup : (drivers.map Driver.driver_id).Nodup)
    (hw : p.current_time < d.shift_start ∨ d.shift_end < p.current_time)
    (ho : o ∈ orders) :
    dictLookup (compute_pairwise_cost dist drivers orders p)
      (d.driver_id, o.order_id) = some 999999 := by
  obtain ⟨s, t, rfl⟩ := List.append_of_mem hd
  rw [dictLookup_compute_eq_block dist p orders s t d _ hNodup rfl
    (driverPairCosts_key_exists ho)]
  exact dictLookup_block_sentinel ho (by rcases hw with h | h <;> (intro hc; obtain ⟨h1, h2⟩ := hc; linarith))

/-- Witness for C4 on a concrete input: one driver on shift 8–17 queried at
time 20. -/
theorem c4_witness :
    dictLookup (compute_pairwise_cost distZero [exD1] [exO1] exParamsLate)
      (exD1.driver_id, exO1.order_id) = some 999999 :=
  c4_unavailable_driver_sentinel distZero exParamsLate [exD1] [exO1] exD1 exO1
    (List.mem_singleton_self _) (by simp)
    (Or.inr (by norm_num [exD1, exParamsLate])) (List.mem_singleton_self _)

/-- Claim C10: the cost table returned by `compute_pairwise_cost` has a key
for every driver in the input paired with every order in the input —
including drivers outside their availability window — so every
`costs[(d_id, o_id)]` lookup made by the solver's objective is defined and
the solve raises no `KeyError`. -/
theorem c10_cost_table_complete (dist : ℚ → ℚ → ℚ → ℚ → ℚ) (p : CostParams)
    (drivers : List Driver) (orders : List Order) (cap : ℕ) :
    (∀ d ∈ drivers, ∀ o ∈ orders,
      (dictLookup (compute_pairwise_cost dist drivers orders p)
        (d.driver_id, o.order_id)).isSome = true) ∧
    (assign_drivers_to_orders drivers orders
      (compute_pairwise_cost dist drivers orders p) cap).isSome = true := by
  have hpair : ∀ d ∈ drivers, ∀ o ∈ orders,
      (dictLookup (compute_pairwise_cost dist drivers orders p)
        (d.driver_id, o.order_id)).isSome = true := by
    intro d hd o ho
    apply dictLookup_isSome
    obtain ⟨e, heB, hek⟩ := @driverPairCosts_key_exists dist p orders d o ho
    exact ⟨e, List.mem_flatMap.mpr ⟨d, hd, heB⟩, hek⟩
  refine ⟨hpair, ?_⟩
  have hpres : allPairsPresent (drivers.map Driver.driver_id)
      (orders.map Order.order_id) (compute_pairwise_cost dist drivers orders p) = true := by
    rw [allPairsPresent, List.all_eq_true]
    intro dId hdId
    rw [List.all_eq_true]
    intro oId hoId
    obtain ⟨d, hd, rfl⟩ := List.mem_map.mp hdId
    obtain ⟨o, ho, rfl⟩ := List.mem_map.mp hoId
    exact hpair d hd o ho
  unfold assign_drivers_to_orders
  simp only
  rw [if_pos hpres]
  cases ((allTuples (drivers.map Driver.driver_id).length
      (orders.map Order.order_id).length).filter
      (capacityOk (drivers.map Driver.driver_id).length cap)).argmin
      (totalCost (compute_pairwise_cost dist drivers orders p)
        (drivers.map Driver.driver_id) (orders.map Order.order_id)) <;> rfl

/-- Witness for C10 on a concrete input. -/
theorem c10_witness :
    (dictLookup (compute_pairwise_cost distZero [exD1] [exO1] exParams)
      (exD1.driver_id, exO1.order_id)).isSome = true :=
  (c10_cost_table_complete distZero exParams [exD1] [exO1] 2).1 exD1
    (List.mem_singleton_self _) exO1 (List.mem_singleton_self _)

/-- Counterexample to C6 as stated: a feasible pair (driver on shift at the
default current time, at the same position as the order) whose cost under the
source's default weights is `-1 < 0`: the surge discount `w_surge = -2`
outweighs the driver cost `1`. -/
theorem c6_counterexample :
    (exD1.shift_start ≤ exParams.current_time ∧
      exParams.current_time ≤ exD1.shift_end) ∧
    dictLookup (compute_pairwise_cost distZero [exD1] [exOSurge] exParams)
      ("D1", "O1") = some (-1) ∧ (-1 : ℚ) < 0 := by
  refine ⟨by norm_num [exD1, exParams], ?_, by norm_num⟩
  simp +decide [compute_pairwise_cost, driverPairCosts, pairCost, dictLookup,
    exD1, exOSurge, exParams, distZero]
  norm_num

/-- Claim C6 amended: for every feasible `(driver, order)` pair, the cost
returned by `compute_pairwise_cost` is non-negative provided the distance
metric, the traffic level, every weight (including the incentive and surge
weights, negative by default) and the driver's cost multiplier are
non-negative. -/
theorem c6_feasible_cost_nonneg (dist : ℚ → ℚ → ℚ → ℚ → ℚ) (p : CostParams)
    (drivers : List Driver) (orders : List Order) (d : Driver) (o : Order)
    (hd : d ∈ drivers) (hNodup : (drivers.map Driver.driver_id).Nodup)
    (hw : d.shift_start ≤ p.current_time ∧ p.current_time ≤ d.shift_end)
    (ho : o ∈ orders)
    (hdist : ∀ a b c e : ℚ, 0 ≤ dist a b c e)
    (htr : 0 ≤ p.traffic_level) (hwt : 0 ≤ p.w_time) (hwc : 0 ≤ p.w_cost)
    (hwr : 0 ≤ p.w_rating) (hwi : 0 ≤ p.w_incentive) (hwf : 0 ≤ p.w_fairness)
    (hws : 0 ≤ p.w_surge) (hcf : 0 ≤ d.cost_factor) :
    ∃ c, dictLookup (compute_pairwise_cost dist drivers orders p)
      (d.driver_id, o.order_id) = some c ∧ 0 ≤ c := by
  obtain ⟨s, t, rfl⟩ := List.append_of_mem hd
  rw [dictLookup_compute_eq_block dist p orders s t d _ hNodup rfl
    (driverPairCosts_key_exists ho)]
  obtain ⟨o', _, _, hval⟩ := dictLookup_block_pairCost ho hw
  refine ⟨_, hval, ?_⟩
  apply pairCost_nonneg (hdist _ _ _ _) htr hwt hwc hwr hwi hws hcf
  · split_ifs
    · norm_num
    · exact le_refl 0
  · exact mul_nonneg hwf (le_max_left 0 _)

/-- Witness for the amended C6: with all-non-negative weights the cost of
the concrete feasible pair is non-negative. -/
theorem c6_witness :
    ∃ c, dictLookup (compute_pairwise_cost distZero [exD1] [exO1]
      { w_incentive := 0, w_surge := 0 }) (exD1.driver_id, exO1.order_id) =
        some c ∧ 0 ≤ c :=
  c6_feasible_cost_nonneg distZero { w_incentive := 0, w_surge := 0 }
    [exD1] [exO1] exD1 exO1 (List.mem_singleton_self _) (by simp)
    (by norm_num [exD1]) (List.mem_singleton_self _)
    (fun _ _ _ _ => le_refl 0) (by norm_num) (by norm_num) (by norm_num)
    (by norm_num) (by norm_num) (by norm_num) (by norm_num)
    (by norm_num [exD1])

/-- Claim C7: a driver inside the availability window whose next mandatory
break is less than 10 time units away gets a fixed finite penalty of `50`
added to every one of their pairs, rather than the infeasible sentinel:
compared with the same driver whose break is at least 10 units away, every
pair cost is exactly `50` larger, and in particular remains a finite,
assignable cost. -/
theorem c7_break_penalty (dist : ℚ → ℚ → ℚ → ℚ → ℚ) (p : CostParams)
    (s t : List Driver) (d : Driver) (nb' : ℚ) (orders : List Order) (o : Order)
    (hNodup : ((s ++ d :: t).map Driver.driver_id).Nodup)
    (hw : d.shift_start ≤ p.current_time ∧ p.current_time ≤ d.shift_end)
    (hbr : d.next_break_in_minutes < 10) (hnb : ¬nb' < 10) (ho : o ∈ orders) :
    ∃ c, dictLookup (compute_pairwise_cost dist
        (s ++ { d with next_break_in_minutes := nb' } :: t) orders p)
        (d.driver_id, o.order_id) = some c ∧
      dictLookup (compute_pairwise_cost dist (s ++ d :: t) orders p)
        (d.driver_id, o.order_id) = some (c + 50) := by
  have hids : ((s ++ { d with next_break_in_minutes := nb' } :: t).map
      Driver.driver_id) = (s ++ d :: t).map Driver.driver_id := by
    simp [List.map_append]
  have hNodup' : ((s ++ { d with next_break_in_minutes := nb' } :: t).map
      Driver.driver_id).Nodup := by rw [hids]; exact hNodup
  rw [dictLookup_compute_eq_block dist p orders s t d _ hNodup rfl
    (driverPairCosts_key_exists ho)]
  rw [dictLookup_compute_eq_block dist p orders s t
    { d with next_break_in_minutes := nb' } _ hNodup' rfl
    (driverPairCosts_key_exists ho)]
  have hblock : driverPairCosts dist p orders d =
      orders.map fun o' => ((d.driver_id, o'.order_id),
        pairCost dist p d o' 50 (p.w_fairness * max 0 (d.incentive_progress - 5))) := by
    unfold driverPairCosts
    rw [if_pos hw]
    simp only [if_pos hbr]
  have hblock' : driverPairCosts dist p orders { d with next_break_in_minutes := nb' } =
      orders.map fun o' => ((d.driver_id, o'.order_id),
        pairCost dist p d o' 0 (p.w_fairness * max 0 (d.incentive_progress - 5))) := by
    unfold driverPairCosts
    rw [if_pos hw]
    simp only [if_neg hnb]
    rfl
  rw [hblock, hblock']
  rw [dictLookup_map_offset (fun o' => (d.driver_id, o'.order_id))
    (fun o' => pairCost dist p d o' 50 (p.w_fairness * max 0 (d.incentive_progress - 5)))
    (fun o' => pairCost dist p d o' 0 (p.w_fairness * max 0 (d.incentive_progress - 5)))
    50 orders (fun o' _ => pairCost_break dist p d o' 50 _) _]
  have hkey : ∃ e ∈ orders.map fun o' => ((d.driver_id, o'.order_id),
      pairCost dist p d o' 0 (p.w_fairness * max 0 (d.incentive_progress - 5))),
      e.1 = (d.driver_id, o.order_id) := ⟨_, List.mem_map_of_mem _ ho, rfl⟩
  obtain ⟨c, hc⟩ := Option.isSome_iff_exists.mp (dictLookup_isSome hkey)
  exact ⟨c, hc, by rw [hc]; rfl⟩

/-- Witness for C7 on a concrete input: the break-imminent driver `exDBreak`
versus the same driver with the break 30 minutes away. -/
theorem c7_witness :
    ∃ c, dictLookup (compute_pairwise_cost distZero
        [{ exDBreak with next_break_in_minutes := 30 }] [exO1] exParams)
        (exDBreak.driver_id, exO1.order_id) = some c ∧
      dictLookup (compute_pairwise_cost distZero [exDBreak] [exO1] exParams)
        (exDBreak.driver_id, exO1.order_id) = some (c + 50) :=
  c7_break_penalty distZero exParams [] [] exDBreak 30 [exO1] exO1
    (by simp) (by norm_num [exDBreak, exD1, exParams])
    (by norm_num [exDBreak, exD1]) (by norm_num) (List.mem_singleton_self _)

/-! ### Structure of the solver's result -/

theorem assign_eq_collect {drivers : List Driver} {orders : List Order}
    {costs : CostTable} {cap : ℕ} {f : List ℕ}
    (hpres : allPairsPresent (drivers.map Driver.driver_id)
      (orders.map Order.order_id) costs = true)
    (hm : ((allTuples (drivers.map Driver.driver_id).length
        (orders.map Order.order_id).length).filter
        (capacityOk (drivers.map Driver.driver_id).length cap)).argmin
        (totalCost costs (drivers.map Driver.driver_id)
          (orders.map Order.order_id)) = some f) :
    assign_drivers_to_orders drivers orders costs cap =
      some (collectTriples costs (drivers.map Driver.driver_id)
        (orders.map Order.order_id) f) := by
  unfold assign_drivers_to_orders
  simp only
  rw [if_pos hpres, hm]

theorem assign_eq_nil {drivers : List Driver} {orders : List Order}
    {costs : CostTable} {cap : ℕ}
    (hpres : allPairsPresent (drivers.map Driver.driver_id)
      (orders.map Order.order_id) costs = true)
    (hm : ((allTuples (drivers.map Driver.driver_id).length
        (orders.map Order.order_id).length).filter
        (capacityOk (drivers.map Driver.driver_id).length cap)).argmin
        (totalCost costs (drivers.map Driver.driver_id)
          (orders.map Order.order_id)) = none) :
    assign_drivers_to_orders drivers orders costs cap = some [] := by
  unfold assign_drivers_to_orders
  simp only
  rw [if_pos hpres, hm]

/-- The cost components of the collected triples sum to the objective value
of the chosen assignment. -/
theorem sum_collectTriples (costs : CostTable) (driverIds orderIds : List String)
    (f : List ℕ) (hlen : f.length = orderIds.length)
    (hbound : ∀ i ∈ f, i < driverIds.length) :
    ((collectTriples costs driverIds orderIds f).map fun tr => tr.2.2).sum =
      totalCost costs driverIds orderIds f := by
  unfold collectTriples totalCost
  rw [sum_map_flatMap]
  have hstep : (fun dI => (((List.range orderIds.length).filterMap fun oI =>
      if f.getD oI 0 = dI then
        some (driverIds.getD dI "", orderIds.getD oI "",
          lookupD costs (driverIds.getD dI "", orderIds.getD oI ""))
      else none).map fun tr => tr.2.2).sum) =
      fun dI => (((List.range orderIds.length).filter fun oI =>
        decide (f.getD oI 0 = dI)).map fun oI =>
          lookupD costs (driverIds.getD (f.getD oI 0) "", orderIds.getD oI "")).sum := by
    funext dI
    rw [filterMap_if_eq_map_filter (fun oI => f.getD oI 0 = dI)
      (fun oI => (driverIds.getD dI "", orderIds.getD oI "",
        lookupD costs (driverIds.getD dI "", orderIds.getD oI ""))) _]
    rw [List.map_map]
    apply congrArg List.sum
    apply List.map_congr_left
    intro oI hoI
    have hfo : f.getD oI 0 = dI := of_decide_eq_true (List.mem_filter.mp hoI).2
    simp only [Function.comp_apply]
    rw [hfo]
  rw [hstep]
  exact sum_range_fiber _ _ _ _ fun oI hoI => by
    have h1 : oI < f.length := by rw [hlen]; exact List.mem_range.mp hoI
    rw [List.getD_eq_getElem f 0 h1]
    exact hbound _ (List.getElem_mem h1)

theorem getD_inj_of_nodup {l : List String} (h : l.Nodup) {i j : ℕ}
    (hi : i < l.length) (hj : j < l.length)
    (he : l.getD i "" = l.getD j "") : i = j := by
  rw [List.getD_eq_getElem l "" hi, List.getD_eq_getElem l "" hj] at he
  exact (List.Nodup.getElem_inj_iff h).mp he

/-- With distinct driver identities, the number of collected triples carrying
any given driver identity is bounded by the capacity constraint. -/
theorem countP_collect_driver (costs : CostTable) (driverIds orderIds : List String)
    (f : List ℕ) (cap : ℕ) (hNodup : driverIds.Nodup)
    (hlen : f.length = orderIds.length)
    (hcap : capacityOk driverIds.length cap f = true) (sId : String) :
    (collectTriples costs driverIds orderIds f).countP
      (fun tr => decide (tr.1 = sId)) ≤ cap := by
  unfold collectTriples
  rw [List.countP_flatMap]
  simp only [Function.comp_def]
  have hstep : ∀ dI ∈ List.range driverIds.length,
      (List.countP (fun tr => decide (tr.1 = sId))
        ((List.range orderIds.length).filterMap fun oI =>
          if f.getD oI 0 = dI then
            some (driverIds.getD dI "", orderIds.getD oI "",
              lookupD costs (driverIds.getD dI "", orderIds.getD oI ""))
          else none)) =
      if driverIds.getD dI "" = sId then f.count dI else 0 := by
    intro dI _
    rw [filterMap_if_eq_map_filter (fun oI => f.getD oI 0 = dI)
      (fun oI => (driverIds.getD dI "", orderIds.getD oI "",
        lookupD costs (driverIds.getD dI "", orderIds.getD oI ""))) _]
    rw [List.countP_map]
    by_cases hs : driverIds.getD dI "" = sId
    · rw [if_pos hs]
      rw [List.countP_eq_length.mpr fun oI _ => by simpa using hs]
      rw [← hlen, filter_range_getD_count]
    · rw [if_neg hs]
      rw [List.countP_eq_zero.mpr fun oI _ => by simpa using hs]
  rw [List.map_congr_left hstep]
  by_cases hex : ∃ dI0, dI0 < driverIds.length ∧ driverIds.getD dI0 "" = sId
  · obtain ⟨dI0, hdI0, hs0⟩ := hex
    have hpt : ∀ dI ∈ List.range driverIds.length,
        (if driverIds.getD dI "" = sId then f.count dI else 0) =
          if dI0 = dI then f.count dI0 else 0 := by
      intro dI hdI
      by_cases h1 : driverIds.getD dI "" = sId
      · have heq : dI = dI0 := getD_inj_of_nodup hNodup (List.mem_range.mp hdI) hdI0
          (h1.trans hs0.symm)
        rw [if_pos h1, ← heq, if_pos rfl]
      · have h2 : dI0 ≠ dI := fun hc => h1 (hc ▸ hs0)
        rw [if_neg h1, if_neg h2]
    rw [List.map_congr_left hpt, sum_range_indicator _ _ _ hdI0]
    exact capacityOk_iff.mp hcap dI0 hdI0
  · have hz : ((List.range driverIds.length).map fun dI =>
        if driverIds.getD dI "" = sId then f.count dI else 0).sum = 0 := by
      apply List.sum_eq_zero
      intro x hx
      obtain ⟨dI, hdI, rfl⟩ := List.mem_map.mp hx
      rw [if_neg fun hs => hex ⟨dI, List.mem_range.mp hdI, hs⟩]
    rw [hz]
    exact Nat.zero_le cap

/-- With distinct order identities, every order's identity occurs in exactly
one collected triple. -/
theorem countP_collect_order (costs : CostTable) (driverIds orderIds : List String)
    (f : List ℕ) (hO : orderIds.Nodup) (hlen : f.length = orderIds.length)
    (hbound : ∀ i ∈ f, i < driverIds.length) (oI0 : ℕ)
    (hoI0 : oI0 < orderIds.length) :
    (collectTriples costs driverIds orderIds f).countP
      (fun tr => decide (tr.2.1 = orderIds.getD oI0 "")) = 1 := by
  unfold collectTriples
  rw [List.countP_flatMap]
  simp only [Function.comp_def]
  have hstep : ∀ dI ∈ List.range driverIds.length,
      (List.countP (fun tr => decide (tr.2.1 = orderIds.getD oI0 ""))
        ((List.range orderIds.length).filterMap fun oI =>
          if f.getD oI 0 = dI then
            some (driverIds.getD dI "", orderIds.getD oI "",
              lookupD costs (driverIds.getD dI "", orderIds.getD oI ""))
          else none)) =
      (((List.range orderIds.length).filter fun oI =>
        decide (f.getD oI 0 = dI)).map fun oI =>
          if (decide (orderIds.getD oI "" = orderIds.getD oI0 "")) = true
          then 1 else 0).sum := by
    intro dI _
    rw [filterMap_if_eq_map_filter (fun oI => f.getD oI 0 = dI)
      (fun oI => (driverIds.getD dI "", orderIds.getD oI "",
        lookupD costs (driverIds.getD dI "", orderIds.getD oI ""))) _]
    rw [List.countP_map, countP_eq_sum_map]
    rfl
  rw [List.map_congr_left hstep]
  rw [sum_range_fiber (M := ℕ) _ _ _ _ fun oI hoI => by
    have h1 : oI < f.length := by rw [hlen]; exact List.mem_range.mp hoI
    rw [List.getD_eq_getElem f 0 h1]
    exact hbound _ (List.getElem_mem h1)]
  have hpt : ∀ oI ∈ List.range orderIds.length,
      (if (decide (orderIds.getD oI "" = orderIds.getD oI0 "")) = true
        then 1 else 0) = if oI0 = oI then 1 else 0 := by
    intro oI hoI
    simp only [decide_eq_true_eq]
    by_cases he : orderIds.getD oI "" = orderIds.getD oI0 ""
    · have heq : oI = oI0 := getD_inj_of_nodup hO (List.mem_range.mp hoI) hoI0 he
      rw [if_pos he, heq, if_pos rfl]
    · have h2 : oI0 ≠ oI := fun hc => he (by rw [hc])
      rw [if_neg he, if_neg h2]
  rw [List.map_congr_left hpt, sum_range_indicator 1 _ oI0 hoI0]

/-! ### Claims about the assignment solver -/

/-- Claim C1: whenever some assignment satisfies the coverage constraint
(each order sent to exactly one driver, encoded by the choice function `g`)
and the capacity constraint, the result returned by
`assign_drivers_to_orders` exists and the sum of the cost components of its
triples is at most the total cost of every such assignment. -/
theorem c1_assign_optimal (drivers : List Driver) (orders : List Order)
    (costs : CostTable) (cap : ℕ)
    (hD : (drivers.map Driver.driver_id).Nodup)
    (hO : (orders.map Order.order_id).Nodup)
    (hpres : allPairsPresent (drivers.map Driver.driver_id)
      (orders.map Order.order_id) costs = true)
    (g : List ℕ) (hg_len : g.length = orders.length)
    (hg_mem : ∀ i ∈ g, i < drivers.length) (hg_cap : ∀ dI, g.count dI ≤ cap) :
    ∃ r, assign_drivers_to_orders drivers orders costs cap = some r ∧
      (r.map fun tr => tr.2.2).sum ≤
        totalCost costs (drivers.map Driver.driver_id)
          (orders.map Order.order_id) g := by
  have hgmem : g ∈ (allTuples (drivers.map Driver.driver_id).length
      (orders.map Order.order_id).length).filter
      (capacityOk (drivers.map Driver.driver_id).length cap) := by
    rw [List.mem_filter]
    refine ⟨mem_allTuples.mpr ⟨by rw [List.length_map]; exact hg_len, ?_⟩, ?_⟩
    · intro i hi
      rw [List.length_map]
      exact hg_mem i hi
    · exact capacityOk_iff.mpr fun dI _ => hg_cap dI
  cases hm : ((allTuples (drivers.map Driver.driver_id).length
      (orders.map Order.order_id).length).filter
      (capacityOk (drivers.map Driver.driver_id).length cap)).argmin
      (totalCost costs (drivers.map Driver.driver_id)
        (orders.map Order.order_id)) with
  | none =>
    rw [List.argmin_eq_none] at hm
    rw [hm] at hgmem
    exact absurd hgmem (List.not_mem_nil g)
  | some fmin =>
    have hmem' := List.argmin_mem (Option.mem_def.mpr hm)
    obtain ⟨hf_tuples, hf_cap⟩ := List.mem_filter.mp hmem'
    obtain ⟨hf_len, hf_bound⟩ := mem_allTuples.mp hf_tuples
    refine ⟨_, assign_eq_collect hpres hm, ?_⟩
    rw [sum_collectTriples costs (drivers.map Driver.driver_id)
      (orders.map Order.order_id) fmin hf_len hf_bound]
    exact List.le_of_mem_argmin hgmem (Option.mem_def.mpr hm)

/-- Witness for C1: two drivers, one order, explicit cost table; the
competing assignment `g = [0]` books the order on the costlier driver. -/
theorem c1_witness :
    ∃ r, assign_drivers_to_orders [exD1, exD2] [exO1] exTable2 1 = some r ∧
      (r.map fun tr => tr.2.2).sum ≤
        totalCost exTable2 ([exD1, exD2].map Driver.driver_id)
          ([exO1].map Order.order_id) [0] :=
  c1_assign_optimal [exD1, exD2] [exO1] exTable2 1
    (by simp [exD1, exD2]) (by simp) (by rfl) [0] (by simp)
    (by simp) (fun dI => by simpa using List.count_le_length dI [0])

/-- Counterexample to C2 as stated: a single driver outside their shift, one
order.  Every pair of that order carries the sentinel cost (zero feasible
drivers), yet the order appears in the returned triple — the `== 1` coverage
constraint books it on the unavailable driver at cost `999999` instead of
excluding it. -/
theorem c2_counterexample :
    dictLookup (compute_pairwise_cost distZero [exD1] [exO1] exParamsLate)
      ("D1", "O1") = some 999999 ∧
    assign_drivers_to_orders [exD1] [exO1]
      (compute_pairwise_cost distZero [exD1] [exO1] exParamsLate) 2 =
      some [("D1", "O1", 999999)] := by
  constructor
  · simp +decide [compute_pairwise_cost, driverPairCosts, dictLookup, exD1,
      exO1, exParamsLate, distZero]
  · simp +decide [assign_drivers_to_orders, compute_pairwise_cost,
      driverPairCosts, dictLookup, allPairsPresent, allTuples, capacityOk,
      totalCost, collectTriples, lookupD, exD1, exO1, exParamsLate, distZero,
      List.argmin, List.argAux]

/-- Claim C2 amended: whenever any capacity-respecting complete assignment
exists, every order — with or without a feasible driver — appears in exactly
one triple of the result; an order whose every pair carries the sentinel cost
is still assigned (at sentinel cost) rather than excluded or reported
unassigned. -/
theorem c2_every_order_exactly_once (drivers : List Driver)
    (orders : List Order) (costs : CostTable) (cap : ℕ)
    (hD : (drivers.map Driver.driver_id).Nodup)
    (hO : (orders.map Order.order_id).Nodup)
    (hpres : allPairsPresent (drivers.map Driver.driver_id)
      (orders.map Order.order_id) costs = true)
    (g : List ℕ) (hg_len : g.length = orders.length)
    (hg_mem : ∀ i ∈ g, i < drivers.length) (hg_cap : ∀ dI, g.count dI ≤ cap)
    (oIdx : ℕ) (hoIdx : oIdx < orders.length) :
    ∃ r, assign_drivers_to_orders drivers orders costs cap = some r ∧
      r.countP (fun tr => decide (tr.2.1 =
        (orders.map Order.order_id).getD oIdx "")) = 1 := by
  have hgmem : g ∈ (allTuples (drivers.map Driver.driver_id).length
      (orders.map Order.order_id).length).filter
      (capacityOk (drivers.map Driver.driver_id).length cap) := by
    rw [List.mem_filter]
    refine ⟨mem_allTuples.mpr ⟨by rw [List.length_map]; exact hg_len, ?_⟩, ?_⟩
    · intro i hi
      rw [List.length_map]
      exact hg_mem i hi
    · exact capacityOk_iff.mpr fun dI _ => hg_cap dI
  cases hm : ((allTuples (drivers.map Driver.driver_id).length
      (orders.map Order.order_id).length).filter
      (capacityOk (drivers.map Driver.driver_id).length cap)).argmin
      (totalCost costs (drivers.map Driver.driver_id)
        (orders.map Order.order_id)) with
  | none =>
    rw [List.argmin_eq_none] at hm
    rw [hm] at hgmem
    exact absurd hgmem (List.not_mem_nil g)
  | some fmin =>
    have hmem' := List.argmin_mem (Option.mem_def.mpr hm)
    obtain ⟨hf_tuples, hf_cap⟩ := List.mem_filter.mp hmem'
    obtain ⟨hf_len, hf_bound⟩ := mem_allTuples.mp hf_tuples
    refine ⟨_, assign_eq_collect hpres hm, ?_⟩
    exact countP_collect_order costs (drivers.map Driver.driver_id)
      (orders.map Order.order_id) fmin hO hf_len hf_bound oIdx
      (by rw [List.length_map]; exact hoIdx)

/-- Witness for the amended C2: the single order of the concrete degenerate
input (out-of-shift driver, sentinel-only costs) appears in exactly one
triple. -/
theorem c2_witness :
    ∃ r, assign_drivers_to_orders [exD1] [exO1]
      (compute_pairwise_cost distZero [exD1] [exO1] exParamsLate) 2 = some r ∧
      r.countP (fun tr => decide (tr.2.1 =
        ([exO1].map Order.order_id).getD 0 "")) = 1 :=
  c2_every_order_exactly_once [exD1] [exO1]
    (compute_pairwise_cost distZero [exD1] [exO1] exParamsLate) 2
    (by simp) (by simp) (by rfl)
    [0] (by simp) (by simp)
    (fun dI => Nat.le_trans (by simpa using List.count_le_length dI [0])
      (by norm_num))
    0 (by simp)

/-- Claim C3: for every driver identity, the number of triples of the result
carrying that identity is at most `driver_capacity`. -/
theorem c3_capacity_invariant (drivers : List Driver) (orders : List Order)
    (costs : CostTable) (cap : ℕ)
    (hD : (drivers.map Driver.driver_id).Nodup)
    (hpres : allPairsPresent (drivers.map Driver.driver_id)
      (orders.map Order.order_id) costs = true) (sId : String) :
    ∃ r, assign_drivers_to_orders drivers orders costs cap = some r ∧
      r.countP (fun tr => decide (tr.1 = sId)) ≤ cap := by
  cases hm : ((allTuples (drivers.map Driver.driver_id).length
      (orders.map Order.order_id).length).filter
      (capacityOk (drivers.map Driver.driver_id).length cap)).argmin
      (totalCost costs (drivers.map Driver.driver_id)
        (orders.map Order.order_id)) with
  | none => exact ⟨[], assign_eq_nil hpres hm, by simp⟩
  | some fmin =>
    have hmem' := List.argmin_mem (Option.mem_def.mpr hm)
    obtain ⟨hf_tuples, hf_cap⟩ := List.mem_filter.mp hmem'
    obtain ⟨hf_len, hf_bound⟩ := mem_allTuples.mp hf_tuples
    exact ⟨_, assign_eq_collect hpres hm,
      countP_collect_driver costs (drivers.map Driver.driver_id)
        (orders.map Order.order_id) fmin cap hD hf_len hf_cap sId⟩

/-- Witness for C3 on the concrete two-driver input. -/
theorem c3_witness :
    ∃ r, assign_drivers_to_orders [exD1, exD2] [exO1] exTable2 1 = some r ∧
      r.countP (fun tr => decide (tr.1 = "D1")) ≤ 1 :=
  c3_capacity_invariant [exD1, exD2] [exO1] exTable2 1
    (by simp [exD1, exD2]) (by rfl) "D1"

/-- Claim C5: with zero drivers or zero orders the solver returns an empty
result (and, the model being total on such inputs, no error). -/
theorem c5_degenerate_input (drivers : List Driver) (orders : List Order)
    (costs : CostTable) (cap : ℕ) (h : drivers = [] ∨ orders = []) :
    assign_drivers_to_orders drivers orders costs cap = some [] := by
  rcases h with rfl | rfl
  · have hpres : allPairsPresent (([] : List Driver).map Driver.driver_id)
        (orders.map Order.order_id) costs = true := rfl
    unfold assign_drivers_to_orders
    simp only
    rw [if_pos hpres]
    cases orders with
    | nil => simp [allTuples, capacityOk, collectTriples]
    | cons o os => simp [allTuples]
  · have hpres : allPairsPresent (drivers.map Driver.driver_id)
        (([] : List Order).map Order.order_id) costs = true :=
      List.all_eq_true.mpr fun _ _ => rfl
    unfold assign_drivers_to_orders
    simp only
    rw [if_pos hpres]
    simp [allTuples, capacityOk, collectTriples]

/-- Witness for C5 on concrete inputs: one driver and no orders. -/
theorem c5_witness :
    assign_drivers_to_orders [exD1] [] exTable1 2 = some [] :=
  c5_degenerate_input [exD1] [] exTable1 2 (Or.inr rfl)

/-- Claim C8: two runs on identical drivers, orders, weights/context and
capacity produce the identical cost table and the identical assignment
result sequence.  Both functions are pure: their output is fully determined
by the listed inputs, with no hidden random state in the model. -/
theorem c8_deterministic (dist : ℚ → ℚ → ℚ → ℚ → ℚ)
    (drivers1 drivers2 : List Driver) (orders1 orders2 : List Order)
    (p1 p2 : CostParams) (cap1 cap2 : ℕ)
    (h1 : drivers1 = drivers2) (h2 : orders1 = orders2) (h3 : p1 = p2)
    (h4 : cap1 = cap2) :
    compute_pairwise_cost dist drivers1 orders1 p1 =
      compute_pairwise_cost dist drivers2 orders2 p2 ∧
    assign_drivers_to_orders drivers1 orders1
      (compute_pairwise_cost dist drivers1 orders1 p1) cap1 =
    assign_drivers_to_orders drivers2 orders2
      (compute_pairwise_cost dist drivers2 orders2 p2) cap2 := by
  subst h1
  subst h2
  subst h3
  subst h4
  exact ⟨rfl, rfl⟩

/-- Witness for C8 on a concrete repeated run. -/
theorem c8_witness :
    compute_pairwise_cost distZero [exD1] [exO1] exParams =
      compute_pairwise_cost distZero [exD1] [exO1] exParams ∧
    assign_drivers_to_orders [exD1] [exO1]
      (compute_pairwise_cost distZero [exD1] [exO1] exParams) 2 =
    assign_drivers_to_orders [exD1] [exO1]
      (compute_pairwise_cost distZero [exD1] [exO1] exParams) 2 :=
  c8_deterministic distZero [exD1] [exD1] [exO1] [exO1] exParams exParams 2 2
    rfl rfl rfl rfl

/-- Counterexample to C9 as stated: an input with a duplicate order identity
(`exO1` listed twice) on which the solver raises no error at all — it
returns a normal result (the same pair twice), exactly as the source does,
which performs no input validation. -/
theorem c9_counterexample :
    assign_drivers_to_orders [exD1] [exO1, exO1] exTable1 2 =
      some [("D1", "O1", 7), ("D1", "O1", 7)] := by
  simp +decide [assign_drivers_to_orders, allPairsPresent, dictLookup,
    allTuples, capacityOk, totalCost, collectTriples, lookupD, exD1, exO1,
    exTable1, List.argmin, List.argAux, List.range_succ]

/-- Claim C9 amended: the solver performs no duplicate-identity validation —
inputs with duplicate driver or order identities are processed without any
error.  The only hard failure is a missing cost-table entry (`KeyError`):
the solve returns a result exactly when the cost table covers every
driver×order pair it reads. -/
theorem c9_error_iff_missing_cost (drivers : List Driver)
    (orders : List Order) (costs : CostTable) (cap : ℕ) :
    (assign_drivers_to_orders drivers orders costs cap).isSome = true ↔
      allPairsPresent (drivers.map Driver.driver_id)
        (orders.map Order.order_id) costs = true := by
  constructor
  · intro h
    by_contra hn
    unfold assign_drivers_to_orders at h
    simp only at h
    rw [if_neg hn] at h
    simp at h
  · intro h
    unfold assign_drivers_to_orders
    simp only
    rw [if_pos h]
    cases ((allTuples (drivers.map Driver.driver_id).length
        (orders.map Order.order_id).length).filter
        (capacityOk (drivers.map Driver.driver_id).length cap)).argmin
        (totalCost costs (drivers.map Driver.driver_id)
          (orders.map Order.order_id)) <;> rfl

/-- Witness for the amended C9: the duplicate-identity input is solved
without error because its cost table covers the read pairs. -/
theorem c9_witness :
    (assign_drivers_to_orders [exD1] [exO1, exO1] exTable1 2).isSome = true :=
  (c9_error_iff_missing_cost [exD1] [exO1, exO1] exTable1 2).mpr (by rfl)

end DriverAssignment
